import Mathlib

/-!
Verification of the AVX512-VNNI Adler-32 kernel
(`src/arch/x86/adler32_avx512_vnni.c`, function `adler32_avx512_vnni`)
against its natural-language specification.

The 512-bit registers are embedded as lane maps `Nat → Nat`: lane `i`
(for `i < 16`) holds the i-th unsigned 32-bit word of the register, and
every arithmetic instruction reduces each lane modulo `2^32`, exactly as
the hardware does.  Buffers are lists of byte values; pointer advancement
is `List.drop`.  The configuration embedded is the one where neither
`X86_SSE41_ADLER32` nor `X86_AVX2_ADLER32` is compiled in, so the only
delegated routines are the scalar tail handlers.
-/

/-- `BASE` from `adler32_p.h` (stated in the spec): the largest prime below `2^16`. -/
def BASE : Nat := 65521

/-- Modelled from the spec: `NMAX` is defined in `adler32_p.h`, which is not part
of the sources here.  The spec describes it as the maximum number of input bytes
that may be accumulated into `sum1`/`sum2` before a modulo reduction is mandatory,
chosen so that worst-case accumulation (all bytes `0xFF`) cannot overflow the
32-bit accumulator width; the standard zlib value with that property is 5552. -/
def NMAX : Nat := 5552

/-- `2^32`, the wrap-around modulus of one unsigned 32-bit vector lane. -/
def M32 : Nat := 4294967296

/-- A 512-bit register viewed as unsigned 32-bit lanes: lane `i` (`i < 16`)
holds the i-th 32-bit word.  Lanes with index `≥ 16` are unused and stay 0. -/
abbrev Vec := Nat → Nat

/-- `_mm512_setzero_si512`. -/
def vzero : Vec := fun _ => 0

/-- `_mm512_zextsi128_si512 (_mm_cvtsi32_si128 x)`: the 32-bit value `x` in
lane 0, all other lanes zero. -/
def vbcast0 (x : Nat) : Vec := fun i => if i = 0 then x else 0

/-- `_mm512_add_epi32`: lanewise addition, wrapping modulo `2^32`. -/
def vadd32 (a b : Vec) : Vec := fun i => (a i + b i) % M32

/-- `_mm512_slli_epi32 v 6`: lanewise left shift by 6 = multiplication by 64,
wrapping modulo `2^32`. -/
def vslli6 (a : Vec) : Vec := fun i => (a i * 64) % M32

/-- `_mm512_sad_epu8 blk zero`: each 64-bit lane `j` receives the sum of the
absolute differences of bytes `8j..8j+7` against zero, i.e. the plain sum of
those eight bytes (at most `8·255`, so exact).  Reinterpreted as 32-bit lanes,
the even lane `2j` holds that sum and the odd lane `2j+1` is zero. -/
def vsad (blk : List Nat) : Vec := fun i =>
  if i % 2 = 0 then ∑ t ∈ Finset.range 8, blk.getD (8 * (i / 2) + t) 0 else 0

/-- The constant weight register `dot2v` of the source, written here in byte
order (index 0 first).  `_mm512_set_epi8` lists bytes most-significant first,
so the source text `set_epi8(1, 2, ..., 64)` puts weight 64 at byte 0 and
weight 1 at byte 63. -/
def dot2v : List Nat :=
  [64, 63, 62, 61, 60, 59, 58, 57, 56, 55, 54, 53, 52, 51, 50, 49,
   48, 47, 46, 45, 44, 43, 42, 41, 40, 39, 38, 37, 36, 35, 34, 33,
   32, 31, 30, 29, 28, 27, 26, 25, 24, 23, 22, 21, 20, 19, 18, 17,
   16, 15, 14, 13, 12, 11, 10, 9, 8, 7, 6, 5, 4, 3, 2, 1]

/-- The exact (unwrapped) per-lane dot product computed by `vpdpbusd`:
32-bit lane `j` receives the sum over its four bytes `4j..4j+3` of
byte · weight.  All four products are nonnegative and their sum is at most
`4·255·64 < 2^31`, so the in-instruction accumulation is exact. -/
def dpv (blk : List Nat) : Vec := fun j =>
  ∑ t ∈ Finset.range 4, blk.getD (4 * j + t) 0 * dot2v.getD (4 * j + t) 0

/-- `_mm512_dpbusd_epi32 acc blk dot2v`: adds the per-lane dot product into
the accumulator, wrapping modulo `2^32` (the non-saturating VNNI variant). -/
def vdpbusd (acc : Vec) (blk : List Nat) : Vec := fun j => (acc j + dpv blk j) % M32

/-- Modelled from the spec: `partial_hsum` lives in `adler32_avx512_p.h`, which
is not part of the sources here.  Per the spec it is the partial horizontal sum
of the lanes that line up with the SAD reduction, i.e. the even-indexed 32-bit
lanes; the additions wrap modulo `2^32`. -/
def phsum_even (v : Vec) : Nat := (∑ j ∈ Finset.range 8, v (2 * j)) % M32

/-- `_mm512_reduce_add_epu32`: the full horizontal sum of all sixteen 32-bit
lanes, wrapping modulo `2^32`. -/
def reduce_add_epu32 (v : Vec) : Nat := (∑ i ∈ Finset.range 16, v i) % M32

/-- One step of the canonical scalar Adler-32 recurrence:
`sum1 += byte; sum2 += sum1`, both modulo `BASE`. -/
def adlerStep (p : Nat × Nat) (b : Nat) : Nat × Nat :=
  ((p.1 + b) % BASE, (p.2 + p.1 + b) % BASE)

/-- The scalar sequential Adler-32 recurrence folded over a byte list from the
state `(s1, s2)`. -/
def scalarFold (s1 s2 : Nat) (l : List Nat) : Nat × Nat := l.foldl adlerStep (s1, s2)

/-- Packing of a `(sum1, sum2)` state into the combined 32-bit checksum
`sum2 * 2^16 + sum1` (the source's `adler | (sum2 << 16)`, whose operands do
not overlap). -/
def packSums (p : Nat × Nat) : Nat := p.2 * 65536 + p.1

/-- Modelled from the spec: the scalar tail handler `adler32_len_16` of
`adler32_p.h` (not part of the sources here).  Per the spec it has the same
contract as the whole checksum: it folds the first `len` bytes of the buffer
through the scalar recurrence starting from `(adler, sum2)` and returns the
packed combined value. -/
def adler32_len_16 (adler : Nat) (buf : List Nat) (len : Nat) (sum2 : Nat) : Nat :=
  packSums (scalarFold adler sum2 (buf.take len))

/-- Modelled from the spec: the one-byte fast path `adler32_len_1` of
`adler32_p.h` (not part of the sources here); same contract, one byte. -/
def adler32_len_1 (adler : Nat) (buf : List Nat) (sum2 : Nat) : Nat :=
  packSums (scalarFold adler sum2 (buf.take 1))

/-- The in-flight vector state of one chunk: the byte-sum accumulator `vs1`,
the two weighted accumulators `vs2` and `vs2_1`, the carry accumulator `vs3`,
the snapshot `vs1_0` of `vs1` from before the current sub-block, and the
current buffer position. -/
structure VState where
  vs1 : Vec
  vs2 : Vec
  vs2_1 : Vec
  vs3 : Vec
  vs1_0 : Vec
  buf : List Nat

/-- The manually-unrolled inner loop (`while (k >= 128)`, lines 92–114 of the
source): two 64-byte sub-blocks per iteration, the second one accumulated into
the separate register `vs2_1`. -/
def innerUnrolled (st : VState) (k : Nat) : VState :=
  if 128 ≤ k then
    let vbuf0 := st.buf.take 64
    let vbuf1 := (st.buf.drop 64).take 64
    let vs1a := vadd32 st.vs1 (vsad vbuf0)
    let vs3a := vadd32 st.vs3 st.vs1_0
    let vs2a := vdpbusd st.vs2 vbuf0
    let vs3b := vadd32 vs3a vs1a
    let vs1b := vadd32 vs1a (vsad vbuf1)
    let vs2_1a := vdpbusd st.vs2_1 vbuf1
    innerUnrolled ⟨vs1b, vs2a, vs2_1a, vs3b, vs1b, st.buf.drop 128⟩ (k - 128)
  else st
termination_by k
decreasing_by omega

/-- The number of bytes one outer-loop iteration consumes from a remaining
length `len`: `k = min(len, NMAX)` rounded down to a multiple of 64
(lines 69–70 of the source). -/
def chunkK (len : Nat) : Nat := min len NMAX - (min len NMAX) % 64

/-- One iteration of the outer `while (len >= 64)` loop (lines 68–123):
seed lane 0 of fresh accumulators with the scalar state, peel one 64-byte
sub-block if the chunk length is an odd multiple of 64, run the unrolled
loop, fold the shifted carry accumulator and `vs2_1` into `vs2`, and reduce
both accumulators back to scalars modulo `BASE`.  Returns the new
`(adler, sum2)`, the advanced buffer, and the remaining length. -/
def chunk (adler sum2 : Nat) (bs : List Nat) (len : Nat) : Nat × Nat × List Nat × Nat :=
  let k1 := chunkK len
  let st0 : VState := ⟨vbcast0 adler, vbcast0 sum2, vzero, vzero, vbcast0 adler, bs⟩
  let st1 : VState :=
    if k1 % 128 ≠ 0 then
      let vbuf1 := st0.buf.take 64
      let v1 := vadd32 st0.vs1 (vsad vbuf1)
      ⟨v1, vdpbusd st0.vs2 vbuf1, st0.vs2_1, vadd32 st0.vs3 st0.vs1_0, v1, st0.buf.drop 64⟩
    else st0
  let k2 := if k1 % 128 ≠ 0 then k1 - 64 else k1
  let stf := innerUnrolled st1 k2
  let vs2f := vadd32 (vadd32 stf.vs2 (vslli6 stf.vs3)) stf.vs2_1
  (phsum_even stf.vs1 % BASE, reduce_add_epu32 vs2f % BASE, stf.buf, len - k1)

theorem chunk_fourth (adler sum2 : Nat) (bs : List Nat) (len : Nat) :
    (chunk adler sum2 bs len).2.2.2 = len - chunkK len := rfl

theorem chunkK_ge_64 (len : Nat) (h : 64 ≤ len) : 64 ≤ chunkK len := by
  have hn : NMAX = 5552 := rfl
  simp only [chunkK]
  omega

/-- The outer `while (len >= 64)` loop.  Between iterations the whole vector
state is determined by the two reduced scalars (they are re-broadcast into
lane 0 of fresh accumulators, lines 121 and 123), so the loop state is
`(adler, sum2, buffer, remaining length)`. -/
def outerLoop (adler sum2 : Nat) (bs : List Nat) (len : Nat) : Nat × Nat × List Nat × Nat :=
  if h64 : 64 ≤ len then
    let c := chunk adler sum2 bs len
    outerLoop c.1 c.2.1 c.2.2.1 c.2.2.2
  else (adler, sum2, bs, len)
termination_by len
decreasing_by
  rw [chunk_fourth]
  have := chunkK_ge_64 len h64
  omega

/-- `adler32_avx512_vnni` (the whole function, lines 18–128), in the
configuration where neither `X86_SSE41_ADLER32` nor `X86_AVX2_ADLER32` is
defined.  The buffer is `Option`al: `none` embeds a NULL pointer.  The C
expression `(adler >> 16) & 0xffff` is `(adler / 2^16) % 2^16` and
`adler & 0xffff` is `adler % 2^16`.  With a NULL buffer and `len == 1` the C
code dereferences the pointer (undefined behaviour); that unreachable case is
given the arbitrary value 0 here. -/
def adler32_avx512_vnni (adler : Nat) (buf : Option (List Nat)) (len : Nat) : Nat :=
  let sum2 := (adler / 65536) % 65536
  let adler1 := adler % 65536
  if len = 1 then
    match buf with
    | some bs => adler32_len_1 adler1 bs sum2
    | none => 0
  else
    match buf with
    | none => 1
    | some bs =>
      if len < 16 then adler32_len_16 adler1 bs len sum2
      else
        let r := outerLoop adler1 sum2 bs len
        adler32_len_16 r.1 r.2.2.1 r.2.2.2 r.2.1

/-!
## Reference quantities

`wsum l` is the position-weighted byte sum `∑ (|l| - i) * l[i]` that the
sequential recurrence accumulates into `sum2` beyond `|l| * sum1`, and
`blocks64 n bs` splits the first `64 n` bytes of a buffer into its 64-byte
sub-blocks.
-/

/-- The weighted sum `∑ i, (l.length - i) * l[i]`: byte `i` of `l` is re-summed
into `sum2` once for itself and once for each later byte. -/
def wsum : List Nat → Nat
  | [] => 0
  | b :: l => (l.length + 1) * b + wsum l

/-- The first `n` 64-byte sub-blocks of a buffer. -/
def blocks64 : Nat → List Nat → List (List Nat)
  | 0, _ => []
  | n + 1, bs => bs.take 64 :: blocks64 n (bs.drop 64)

/-- Exact (non-wrapping) lanewise addition, the proof-side mirror of `vadd32`. -/
def vaddX (a b : Vec) : Vec := fun i => a i + b i

/-- Lanewise reduction modulo `2^32`. -/
def vmod (v : Vec) : Vec := fun i => v i % M32

/-- Exact per-sub-block step: `vs3` absorbs the previous `vs1`, `vs1` absorbs
the sub-block's byte sums, `vs2` absorbs its dot product. -/
def stepX (st : Vec × Vec × Vec) (blk : List Nat) : Vec × Vec × Vec :=
  (vaddX st.1 (vsad blk), vaddX st.2.1 (dpv blk), vaddX st.2.2 st.1)

/-- The exact reference run over a list of sub-blocks. -/
def runX (st : Vec × Vec × Vec) (bl : List (List Nat)) : Vec × Vec × Vec :=
  bl.foldl stepX st

/-- Sum of the sixteen 32-bit lanes of a register. -/
def tAll (v : Vec) : Nat := ∑ i ∈ Finset.range 16, v i

/-- Sum of the eight even-indexed 32-bit lanes of a register. -/
def tEven (v : Vec) : Nat := ∑ j ∈ Finset.range 8, v (2 * j)

theorem sum_grid (a b : Nat) (f : Nat → Nat) :
    ∑ i ∈ Finset.range (a * b), f i
      = ∑ j ∈ Finset.range a, ∑ t ∈ Finset.range b, f (b * j + t) := by
  induction a with
  | zero => simp
  | succ a ih =>
    have h1 : (a + 1) * b = a * b + b := by ring
    rw [h1, Finset.sum_range_add, ih, Finset.sum_range_succ]
    have h2 : ∀ t ∈ Finset.range b, f (a * b + t) = f (b * a + t) := by
      intro t _; rw [Nat.mul_comm]
    rw [Finset.sum_congr rfl h2]

theorem sum_getD (l : List Nat) : l.sum = ∑ i ∈ Finset.range l.length, l.getD i 0 := by
  induction l with
  | nil => simp
  | cons b l ih =>
    rw [List.sum_cons, List.length_cons, Finset.sum_range_succ', ih]
    simp [List.getD]
    omega

theorem wsum_getD (l : List Nat) :
    wsum l = ∑ i ∈ Finset.range l.length, (l.length - i) * l.getD i 0 := by
  induction l with
  | nil => simp [wsum]
  | cons b l ih =>
    rw [wsum, List.length_cons, Finset.sum_range_succ', ih]
    simp [List.getD]
    omega

theorem wsum_append (l1 l2 : List Nat) :
    wsum (l1 ++ l2) = wsum l1 + l2.length * l1.sum + wsum l2 := by
  induction l1 with
  | nil => simp [wsum]
  | cons b l1 ih =>
    rw [List.cons_append, wsum, wsum, ih, List.length_append, List.sum_cons]
    ring

theorem sum_le_bound (l : List Nat) (h : ∀ b ∈ l, b < 256) : l.sum ≤ 255 * l.length := by
  induction l with
  | nil => simp
  | cons b l ih =>
    have hb : b < 256 := h b (List.mem_cons_self b l)
    have := ih (fun x hx => h x (List.mem_cons_of_mem b hx))
    simp only [List.sum_cons, List.length_cons]
    omega

theorem wsum_bound (l : List Nat) (h : ∀ b ∈ l, b < 256) :
    2 * wsum l ≤ 255 * (l.length * (l.length + 1)) := by
  induction l with
  | nil => simp [wsum]
  | cons b l ih =>
    have hb : b < 256 := h b (List.mem_cons_self b l)
    have ihh := ih (fun x hx => h x (List.mem_cons_of_mem b hx))
    rw [wsum, List.length_cons]
    have h1 : (l.length + 1) * b ≤ (l.length + 1) * 255 :=
      Nat.mul_le_mul_left _ (by omega)
    have h2 : 255 * ((l.length + 1) * (l.length + 1 + 1))
        = 255 * (l.length * (l.length + 1)) + 2 * ((l.length + 1) * 255) := by ring
    omega

theorem blocks64_length (n : Nat) (bs : List Nat) : (blocks64 n bs).length = n := by
  induction n generalizing bs with
  | zero => rfl
  | succ n ih => simp [blocks64, ih]

theorem blocks64_mem_length (n : Nat) (bs : List Nat) (h : 64 * n ≤ bs.length) :
    ∀ blk ∈ blocks64 n bs, blk.length = 64 := by
  induction n generalizing bs with
  | zero => simp [blocks64]
  | succ n ih =>
    intro blk hblk
    rw [blocks64] at hblk
    rcases List.mem_cons.mp hblk with h0 | h1
    · subst h0
      rw [List.length_take]
      omega
    · exact ih (bs.drop 64) (by simp; omega) blk h1

theorem blocks64_succ_two (m : Nat) (bs : List Nat) :
    blocks64 (2 * (m + 1)) bs
      = bs.take 64 :: (bs.drop 64).take 64 :: blocks64 (2 * m) (bs.drop 128) := by
  have h : 2 * (m + 1) = (2 * m + 1) + 1 := by ring
  rw [h, blocks64, blocks64, List.drop_drop]

/-! ## Lane totals of the primitive vectors -/

theorem tAll_eq_tEven_add (v : Vec) :
    tAll v = tEven v + ∑ j ∈ Finset.range 8, v (2 * j + 1) := by
  have h : (16 : Nat) = 8 * 2 := by norm_num
  rw [tAll, h, sum_grid, tEven, ← Finset.sum_add_distrib]
  refine Finset.sum_congr rfl ?_
  intro j _
  rw [Finset.sum_range_succ, Finset.sum_range_succ, Finset.sum_range_zero]
  simp

theorem sum_grid_8_8 (f : Nat → Nat) :
    (∑ i ∈ Finset.range 64, f i) = ∑ j ∈ Finset.range 8, ∑ t ∈ Finset.range 8, f (8 * j + t) := by
  have h := sum_grid 8 8 f
  norm_num at h
  exact h

theorem sum_grid_16_4 (f : Nat → Nat) :
    (∑ i ∈ Finset.range 64, f i) = ∑ j ∈ Finset.range 16, ∑ t ∈ Finset.range 4, f (4 * j + t) := by
  have h := sum_grid 16 4 f
  norm_num at h
  exact h

theorem tEven_vsad (blk : List Nat) (h : blk.length = 64) : tEven (vsad blk) = blk.sum := by
  rw [tEven]
  have h1 : ∀ j ∈ Finset.range 8,
      vsad blk (2 * j) = ∑ t ∈ Finset.range 8, blk.getD (8 * j + t) 0 := by
    intro j _
    rw [vsad]
    have he : (2 * j) % 2 = 0 := by omega
    have hd : (2 * j) / 2 = j := by omega
    rw [if_pos he, hd]
  rw [Finset.sum_congr rfl h1, sum_getD, h]
  exact (sum_grid_8_8 (fun i => blk.getD i 0)).symm

theorem tAll_vsad (blk : List Nat) (h : blk.length = 64) : tAll (vsad blk) = blk.sum := by
  rw [tAll_eq_tEven_add, tEven_vsad blk h]
  have h1 : ∀ j ∈ Finset.range 8, vsad blk (2 * j + 1) = 0 := by
    intro j _
    rw [vsad]
    have : (2 * j + 1) % 2 = 1 := by omega
    simp [this]
  rw [Finset.sum_congr rfl h1]
  simp

theorem dot2v_getD : ∀ i < 64, dot2v.getD i 0 = 64 - i := by decide

theorem tAll_dpv (blk : List Nat) (h : blk.length = 64) : tAll (dpv blk) = wsum blk := by
  rw [tAll]
  simp only [dpv]
  rw [wsum_getD, h]
  refine Eq.trans (sum_grid_16_4 (fun i => blk.getD i 0 * dot2v.getD i 0)).symm ?_
  refine Finset.sum_congr rfl ?_
  intro i hi
  have hi64 : i < 64 := Finset.mem_range.mp hi
  rw [dot2v_getD i hi64, Nat.mul_comm]

theorem tAll_vaddX (a b : Vec) : tAll (vaddX a b) = tAll a + tAll b := by
  rw [tAll, tAll, tAll, ← Finset.sum_add_distrib]
  rfl

theorem tEven_vaddX (a b : Vec) : tEven (vaddX a b) = tEven a + tEven b := by
  rw [tEven, tEven, tEven, ← Finset.sum_add_distrib]
  rfl

theorem tAll_vbcast0 (x : Nat) : tAll (vbcast0 x) = x := by
  rw [tAll]
  simp only [vbcast0]
  rw [Finset.sum_ite_eq' (Finset.range 16) 0 (fun _ => x)]
  simp

theorem tEven_vbcast0 (x : Nat) : tEven (vbcast0 x) = x := by
  rw [tEven]
  simp only [vbcast0]
  have h1 : ∀ j ∈ Finset.range 8,
      (if 2 * j = 0 then x else 0) = (if j = 0 then x else 0) := by
    intro j _
    by_cases hj : j = 0
    · simp [hj]
    · rw [if_neg (by omega), if_neg hj]
  rw [Finset.sum_congr rfl h1, Finset.sum_ite_eq' (Finset.range 8) 0 (fun _ => x)]
  simp

theorem tAll_vzero : tAll vzero = 0 := by simp [tAll, vzero]

theorem tEven_vzero : tEven vzero = 0 := by simp [tEven, vzero]

/-! ## Wrapped operations as reductions of exact operations -/

theorem vadd32_vmod_any (a v : Vec) : vadd32 (vmod a) v = vmod (vaddX a v) := by
  funext i
  simp only [vadd32, vmod, vaddX, M32]
  omega

theorem vadd32_vmod_two (a b : Vec) : vadd32 (vmod a) (vmod b) = vmod (vaddX a b) := by
  funext i
  simp only [vadd32, vmod, vaddX, M32]
  omega

theorem vdpbusd_vmod (a : Vec) (blk : List Nat) :
    vdpbusd (vmod a) blk = vmod (vaddX a (dpv blk)) := by
  funext i
  simp only [vdpbusd, vmod, vaddX, M32]
  omega

theorem vbcast0_eq_vmod (x : Nat) (h : x < M32) : vbcast0 x = vmod (vbcast0 x) := by
  funext i
  have h' : x < 4294967296 := h
  simp only [vbcast0, vmod, M32]
  by_cases hi : i = 0
  · simp only [if_pos hi]
    omega
  · simp [if_neg hi]

theorem vzero_eq_vmod : vzero = vmod vzero := by
  funext i
  simp [vzero, vmod]

/-! ## Equation lemmas for the recursive definitions -/

theorem innerUnrolled_step (st : VState) (k : Nat) (h : 128 ≤ k) :
    innerUnrolled st k
      = innerUnrolled
          ⟨vadd32 (vadd32 st.vs1 (vsad (st.buf.take 64))) (vsad ((st.buf.drop 64).take 64)),
           vdpbusd st.vs2 (st.buf.take 64),
           vdpbusd st.vs2_1 ((st.buf.drop 64).take 64),
           vadd32 (vadd32 st.vs3 st.vs1_0) (vadd32 st.vs1 (vsad (st.buf.take 64))),
           vadd32 (vadd32 st.vs1 (vsad (st.buf.take 64))) (vsad ((st.buf.drop 64).take 64)),
           st.buf.drop 128⟩ (k - 128) := by
  rw [innerUnrolled, if_pos h]

theorem innerUnrolled_exit (st : VState) (k : Nat) (h : ¬ 128 ≤ k) :
    innerUnrolled st k = st := by
  rw [innerUnrolled, if_neg h]

theorem runX_cons (st : Vec × Vec × Vec) (blk : List Nat) (bl : List (List Nat)) :
    runX st (blk :: bl) = runX (stepX st blk) bl := rfl

theorem runX_nil (st : Vec × Vec × Vec) : runX st [] = st := rfl

/-! ## Totals of the exact reference run -/

theorem runX_totals (n : Nat) : ∀ (bs : List Nat) (w1 w2 w3 : Vec), 64 * n ≤ bs.length →
    tEven (runX (w1, w2, w3) (blocks64 n bs)).1 = tEven w1 + (bs.take (64 * n)).sum
  ∧ tAll (runX (w1, w2, w3) (blocks64 n bs)).1 = tAll w1 + (bs.take (64 * n)).sum
  ∧ tAll (runX (w1, w2, w3) (blocks64 n bs)).2.1
      + 64 * tAll (runX (w1, w2, w3) (blocks64 n bs)).2.2
      = tAll w2 + 64 * tAll w3 + 64 * n * tAll w1 + wsum (bs.take (64 * n)) := by
  induction n with
  | zero =>
    intro bs w1 w2 w3 _
    simp [blocks64, runX_nil, wsum]
  | succ n ih =>
    intro bs w1 w2 w3 hlen
    have hb0 : (bs.take 64).length = 64 := by
      rw [List.length_take]
      omega
    have hrest : 64 * n ≤ (bs.drop 64).length := by
      rw [List.length_drop]
      omega
    have hsplit : bs.take (64 * (n + 1)) = bs.take 64 ++ (bs.drop 64).take (64 * n) := by
      have h1 : 64 * (n + 1) = 64 + 64 * n := by ring
      rw [h1, List.take_add]
    have hRlen : ((bs.drop 64).take (64 * n)).length = 64 * n := by
      rw [List.length_take, List.length_drop]
      omega
    have hchain : blocks64 (n + 1) bs = bs.take 64 :: blocks64 n (bs.drop 64) := rfl
    have hstep : stepX (w1, w2, w3) (bs.take 64)
        = (vaddX w1 (vsad (bs.take 64)), vaddX w2 (dpv (bs.take 64)), vaddX w3 w1) := rfl
    obtain ⟨ih1, ih2, ih3⟩ := ih (bs.drop 64)
      (vaddX w1 (vsad (bs.take 64))) (vaddX w2 (dpv (bs.take 64))) (vaddX w3 w1) hrest
    rw [hchain, runX_cons, hstep]
    rw [hsplit]
    constructor
    · rw [ih1, List.sum_append, tEven_vaddX, tEven_vsad (bs.take 64) hb0]
      omega
    constructor
    · rw [ih2, List.sum_append, tAll_vaddX, tAll_vsad (bs.take 64) hb0]
      omega
    · rw [ih3, wsum_append, hRlen]
      rw [tAll_vaddX, tAll_vaddX, tAll_vaddX, tAll_dpv (bs.take 64) hb0,
        tAll_vsad (bs.take 64) hb0]
      have e1 : 64 * (n + 1) * tAll w1 = 64 * n * tAll w1 + 64 * tAll w1 := by ring
      have e2 : 64 * n * (tAll w1 + (bs.take 64).sum)
          = 64 * n * tAll w1 + 64 * n * (bs.take 64).sum := by ring
      omega

/-- The wrapped, 2-way-unrolled inner loop over `128 m` bytes computes the
lanewise `mod 2^32` reduction of the exact one-sub-block-at-a-time reference
run, with the two weighted accumulators `vs2`/`vs2_1` together carrying the
reference's single weighted accumulator. -/
theorem inner_spec (m : Nat) : ∀ (bs : List Nat) (e1 e2 e21 e3 : Vec),
    ∃ U2 U21 : Vec,
      innerUnrolled ⟨vmod e1, vmod e2, vmod e21, vmod e3, vmod e1, bs⟩ (128 * m)
        = ⟨vmod (runX (e1, vaddX e2 e21, e3) (blocks64 (2 * m) bs)).1, U2, U21,
           vmod (runX (e1, vaddX e2 e21, e3) (blocks64 (2 * m) bs)).2.2,
           vmod (runX (e1, vaddX e2 e21, e3) (blocks64 (2 * m) bs)).1,
           bs.drop (128 * m)⟩
      ∧ ∀ i, (U2 i + U21 i) % M32
          = (runX (e1, vaddX e2 e21, e3) (blocks64 (2 * m) bs)).2.1 i % M32 := by
  induction m with
  | zero =>
    intro bs e1 e2 e21 e3
    refine ⟨vmod e2, vmod e21, ?_, ?_⟩
    · rw [innerUnrolled_exit _ _ (by omega)]
      simp [blocks64, runX_nil]
    · intro i
      simp only [Nat.mul_zero, blocks64, runX_nil, vmod, vaddX, M32]
      omega
  | succ m ih =>
    intro bs e1 e2 e21 e3
    have hk : (128 : Nat) ≤ 128 * (m + 1) := by omega
    have harith : 128 * (m + 1) - 128 = 128 * m := by omega
    have h2mid : vaddX (vaddX (vaddX e2 e21) (dpv (bs.take 64))) (dpv ((bs.drop 64).take 64))
        = vaddX (vaddX e2 (dpv (bs.take 64))) (vaddX e21 (dpv ((bs.drop 64).take 64))) := by
      funext i
      simp only [vaddX]
      omega
    have hmid : stepX (stepX (e1, vaddX e2 e21, e3) (bs.take 64)) ((bs.drop 64).take 64)
        = (vaddX (vaddX e1 (vsad (bs.take 64))) (vsad ((bs.drop 64).take 64)),
           vaddX (vaddX e2 (dpv (bs.take 64))) (vaddX e21 (dpv ((bs.drop 64).take 64))),
           vaddX (vaddX e3 e1) (vaddX e1 (vsad (bs.take 64)))) := by
      show (vaddX (vaddX e1 (vsad (bs.take 64))) (vsad ((bs.drop 64).take 64)),
            vaddX (vaddX (vaddX e2 e21) (dpv (bs.take 64))) (dpv ((bs.drop 64).take 64)),
            vaddX (vaddX e3 e1) (vaddX e1 (vsad (bs.take 64)))) = _
      rw [h2mid]
    obtain ⟨U2, U21, hst, hU⟩ := ih (bs.drop 128)
      (vaddX (vaddX e1 (vsad (bs.take 64))) (vsad ((bs.drop 64).take 64)))
      (vaddX e2 (dpv (bs.take 64)))
      (vaddX e21 (dpv ((bs.drop 64).take 64)))
      (vaddX (vaddX e3 e1) (vaddX e1 (vsad (bs.take 64))))
    refine ⟨U2, U21, ?_, ?_⟩
    · rw [innerUnrolled_step _ _ hk]
      dsimp only
      rw [vadd32_vmod_two e3 e1]
      rw [vadd32_vmod_any e1 (vsad (bs.take 64))]
      rw [vadd32_vmod_any (vaddX e1 (vsad (bs.take 64))) (vsad ((bs.drop 64).take 64))]
      rw [vdpbusd_vmod e2 (bs.take 64)]
      rw [vdpbusd_vmod e21 ((bs.drop 64).take 64)]
      rw [vadd32_vmod_two (vaddX e3 e1) (vaddX e1 (vsad (bs.take 64)))]
      rw [harith, hst]
      rw [blocks64_succ_two m bs, runX_cons, runX_cons, hmid]
      rw [List.drop_drop]
      rw [show (128 : Nat) + 128 * m = 128 * (m + 1) by ring]
    · intro i
      rw [blocks64_succ_two m bs, runX_cons, runX_cons, hmid]
      exact hU i

/-! ## From lane totals to the reduced chunk scalars -/

theorem phsum_even_vmod (v : Vec) : phsum_even (vmod v) = tEven v % M32 := by
  rw [phsum_even, tEven]
  have h : ∀ j ∈ Finset.range 8, vmod v (2 * j) = v (2 * j) % M32 := by
    intro j _
    rfl
  rw [Finset.sum_congr rfl h]
  exact (Finset.sum_nat_mod (Finset.range 8) M32 (fun j => v (2 * j))).symm

theorem reduce_final (U2 U21 E2c E3 : Vec)
    (h : ∀ i, (U2 i + U21 i) % M32 = E2c i % M32) :
    reduce_add_epu32 (vadd32 (vadd32 U2 (vslli6 (vmod E3))) U21)
      = (tAll E2c + 64 * tAll E3) % M32 := by
  rw [reduce_add_epu32]
  have hlane : ∀ i ∈ Finset.range 16,
      vadd32 (vadd32 U2 (vslli6 (vmod E3))) U21 i % M32 = (E2c i + 64 * E3 i) % M32 := by
    intro i _
    have hi := h i
    simp only [vadd32, vslli6, vmod, M32] at hi ⊢
    omega
  calc (∑ i ∈ Finset.range 16, vadd32 (vadd32 U2 (vslli6 (vmod E3))) U21 i) % M32
      = (∑ i ∈ Finset.range 16, vadd32 (vadd32 U2 (vslli6 (vmod E3))) U21 i % M32) % M32 :=
        Finset.sum_nat_mod _ _ _
    _ = (∑ i ∈ Finset.range 16, (E2c i + 64 * E3 i) % M32) % M32 := by
        rw [Finset.sum_congr rfl hlane]
    _ = (∑ i ∈ Finset.range 16, (E2c i + 64 * E3 i)) % M32 :=
        (Finset.sum_nat_mod _ _ _).symm
    _ = (tAll E2c + 64 * tAll E3) % M32 := by
        rw [Finset.sum_add_distrib, ← Finset.mul_sum, tAll, tAll]

theorem chunkK_props (len : Nat) (h : 64 ≤ len) :
    64 ≤ chunkK len ∧ chunkK len % 64 = 0 ∧ chunkK len ≤ 5504 ∧ chunkK len ≤ len := by
  have hn : NMAX = 5552 := rfl
  simp only [chunkK]
  omega

/-- End-of-chunk reduction: given the totals of the exact reference run over
`n` sub-blocks seeded with `(adler, sum2)`, the two wrapped horizontal
reductions modulo `BASE` produce exactly the scalar closed forms.  The bound
`64 n ≤ 5504` (one clipped chunk) keeps both totals below `2^32`. -/
theorem final_scalars (adler sum2 : Nat) (bs : List Nat) (n : Nat) (U2 U21 : Vec)
    (ha : adler ≤ 65535) (hs : sum2 ≤ 65535) (hb : ∀ b ∈ bs, b < 256)
    (hn : 64 * n ≤ bs.length) (hK : 64 * n ≤ 5504)
    (hU : ∀ i, (U2 i + U21 i) % M32
        = (runX (vbcast0 adler, vaddX (vbcast0 sum2) vzero, vzero) (blocks64 n bs)).2.1 i % M32) :
    phsum_even (vmod (runX (vbcast0 adler, vaddX (vbcast0 sum2) vzero, vzero)
        (blocks64 n bs)).1) % BASE
      = (adler + (bs.take (64 * n)).sum) % BASE
  ∧ reduce_add_epu32 (vadd32 (vadd32 U2 (vslli6 (vmod (runX
        (vbcast0 adler, vaddX (vbcast0 sum2) vzero, vzero) (blocks64 n bs)).2.2))) U21) % BASE
      = (sum2 + 64 * n * adler + wsum (bs.take (64 * n))) % BASE := by
  have hto : min (64 * n) bs.length = 64 * n := by omega
  have hsum_le : (bs.take (64 * n)).sum ≤ 255 * (64 * n) := by
    have h1 := sum_le_bound (bs.take (64 * n)) (fun b hb' => hb b (List.take_subset _ _ hb'))
    rw [List.length_take, hto] at h1
    exact h1
  have hsum_le' : (bs.take (64 * n)).sum ≤ 255 * 5504 := by
    have := Nat.mul_le_mul_left 255 hK
    omega
  have hws : 2 * wsum (bs.take (64 * n)) ≤ 255 * (5504 * 5505) := by
    have h1 := wsum_bound (bs.take (64 * n)) (fun b hb' => hb b (List.take_subset _ _ hb'))
    rw [List.length_take, hto] at h1
    have h2 : (64 * n) * (64 * n + 1) ≤ 5504 * 5505 := Nat.mul_le_mul (by omega) (by omega)
    have h3 := Nat.mul_le_mul_left 255 h2
    omega
  have hKa : 64 * n * adler ≤ 5504 * 65535 := Nat.mul_le_mul hK ha
  obtain ⟨t1, t2, t3⟩ :=
    runX_totals n bs (vbcast0 adler) (vaddX (vbcast0 sum2) vzero) vzero hn
  constructor
  · rw [phsum_even_vmod, t1, tEven_vbcast0]
    have hlt : adler + (bs.take (64 * n)).sum < M32 := by
      simp only [M32]
      omega
    rw [Nat.mod_eq_of_lt hlt]
  · rw [reduce_final U2 U21 _ _ hU, t3, tAll_vaddX, tAll_vbcast0, tAll_vzero, tAll_vbcast0]
    have hlt : sum2 + 0 + 64 * 0 + 64 * n * adler + wsum (bs.take (64 * n)) < M32 := by
      simp only [M32]
      omega
    rw [Nat.mod_eq_of_lt hlt]
    congr 1

/-- The closed form of one outer-loop iteration: a chunk of `K = chunkK len`
bytes turns `(adler, sum2)` into
`((adler + ∑ bytes) % BASE, (sum2 + K·adler + wsum) % BASE)` and advances the
buffer and remaining length by `K`. -/
theorem chunk_spec (adler sum2 : Nat) (bs : List Nat) (len : Nat)
    (ha : adler ≤ 65535) (hs : sum2 ≤ 65535)
    (hb : ∀ b ∈ bs, b < 256) (h64 : 64 ≤ len) (hlen : len ≤ bs.length) :
    chunk adler sum2 bs len
      = ((adler + (bs.take (chunkK len)).sum) % BASE,
         (sum2 + chunkK len * adler + wsum (bs.take (chunkK len))) % BASE,
         bs.drop (chunkK len), len - chunkK len) := by
  obtain ⟨hK64, hKmod, hK5504, hKlen⟩ := chunkK_props len h64
  have haM : adler < M32 := by simp only [M32]; omega
  have hsM : sum2 < M32 := by simp only [M32]; omega
  simp only [chunk]
  by_cases h128 : chunkK len % 128 = 0
  · -- chunk length is an even multiple of 64: no peeled sub-block
    rw [if_neg (fun hc => hc h128), if_neg (fun hc => hc h128)]
    obtain ⟨m, hm⟩ : ∃ m, chunkK len = 128 * m := ⟨chunkK len / 128, by omega⟩
    rw [vbcast0_eq_vmod adler haM, vbcast0_eq_vmod sum2 hsM, vzero_eq_vmod]
    obtain ⟨U2, U21, hst, hU⟩ := inner_spec m bs (vbcast0 adler) (vbcast0 sum2) vzero vzero
    rw [hm, hst]
    dsimp only
    have h2m : 64 * (2 * m) = 128 * m := by ring
    obtain ⟨hc1, hc2⟩ := final_scalars adler sum2 bs (2 * m) U2 U21 ha hs hb
      (by omega) (by omega) hU
    rw [h2m] at hc1 hc2
    rw [hc1, hc2]
  · -- odd multiple of 64: one sub-block is peeled before the unrolled loop
    rw [if_pos h128, if_pos h128]
    obtain ⟨m, hm⟩ : ∃ m, chunkK len = 64 + 128 * m := ⟨(chunkK len - 64) / 128, by omega⟩
    rw [vbcast0_eq_vmod adler haM, vbcast0_eq_vmod sum2 hsM, vzero_eq_vmod]
    rw [vadd32_vmod_any (vbcast0 adler) (vsad (bs.take 64))]
    rw [vdpbusd_vmod (vbcast0 sum2) (bs.take 64)]
    rw [vadd32_vmod_two vzero (vbcast0 adler)]
    rw [hm, Nat.add_sub_cancel_left]
    obtain ⟨U2, U21, hst, hU⟩ := inner_spec m (bs.drop 64)
      (vaddX (vbcast0 adler) (vsad (bs.take 64)))
      (vaddX (vbcast0 sum2) (dpv (bs.take 64)))
      vzero
      (vaddX vzero (vbcast0 adler))
    rw [hst]
    dsimp only
    have hassoc : vaddX (vaddX (vbcast0 sum2) (dpv (bs.take 64))) vzero
        = vaddX (vaddX (vbcast0 sum2) vzero) (dpv (bs.take 64)) := by
      funext i
      simp only [vaddX]
      omega
    rw [hassoc]
    have hstep0 : (vaddX (vbcast0 adler) (vsad (bs.take 64)),
                   vaddX (vaddX (vbcast0 sum2) vzero) (dpv (bs.take 64)),
                   vaddX vzero (vbcast0 adler))
        = stepX (vbcast0 adler, vaddX (vbcast0 sum2) vzero, vzero) (bs.take 64) := rfl
    rw [hstep0, ← runX_cons]
    have hbl : bs.take 64 :: blocks64 (2 * m) (bs.drop 64) = blocks64 (2 * m + 1) bs := rfl
    rw [hbl]
    have h2m : 64 * (2 * m + 1) = 64 + 128 * m := by ring
    have hU' : ∀ i, (U2 i + U21 i) % M32
        = (runX (vbcast0 adler, vaddX (vbcast0 sum2) vzero, vzero)
            (blocks64 (2 * m + 1) bs)).2.1 i % M32 := by
      intro i
      rw [← hbl, runX_cons, ← hstep0, ← hassoc]
      exact hU i
    obtain ⟨hc1, hc2⟩ := final_scalars adler sum2 bs (2 * m + 1) U2 U21 ha hs hb
      (by omega) (by omega) hU'
    rw [h2m] at hc1 hc2
    rw [hc1, hc2, List.drop_drop]

/-! ## The scalar recurrence in closed form -/

/-- The exact (mod-free) scalar recurrence. -/
def scalarFoldX (s1 s2 : Nat) (l : List Nat) : Nat × Nat :=
  l.foldl (fun p b => (p.1 + b, p.2 + p.1 + b)) (s1, s2)

theorem scalarFoldX_closed (l : List Nat) : ∀ s1 s2 : Nat,
    scalarFoldX s1 s2 l = (s1 + l.sum, s2 + l.length * s1 + wsum l) := by
  induction l with
  | nil => intro s1 s2; simp [scalarFoldX, wsum]
  | cons b l ih =>
    intro s1 s2
    have hstep : scalarFoldX s1 s2 (b :: l) = scalarFoldX (s1 + b) (s2 + s1 + b) l := rfl
    rw [hstep, ih, List.sum_cons, List.length_cons, wsum, Prod.mk.injEq]
    constructor
    · ring
    · ring

theorem scalarFold_cons (s1 s2 b : Nat) (l : List Nat) :
    scalarFold s1 s2 (b :: l)
      = scalarFold ((s1 + b) % BASE) ((s2 + s1 + b) % BASE) l := rfl

/-- Folding with a reduction after every byte agrees, modulo `BASE`, with the
exact fold, for any pair of starting states that agree modulo `BASE`. -/
theorem scalarFold_modeq (l : List Nat) : ∀ s1 s2 t1 t2 : Nat, l ≠ [] →
    s1 % BASE = t1 % BASE → s2 % BASE = t2 % BASE →
    (scalarFold s1 s2 l).1 = (scalarFoldX t1 t2 l).1 % BASE
  ∧ (scalarFold s1 s2 l).2 = (scalarFoldX t1 t2 l).2 % BASE := by
  induction l with
  | nil =>
    intro s1 s2 t1 t2 h
    exact absurd rfl h
  | cons b l ih =>
    intro s1 s2 t1 t2 _ h1 h2
    simp only [BASE] at h1 h2
    rw [scalarFold_cons]
    have hstep : scalarFoldX t1 t2 (b :: l) = scalarFoldX (t1 + b) (t2 + t1 + b) l := rfl
    rw [hstep]
    by_cases hl : l = []
    · subst hl
      constructor
      · show (s1 + b) % BASE = (t1 + b) % BASE
        simp only [BASE]
        omega
      · show (s2 + s1 + b) % BASE = (t2 + t1 + b) % BASE
        simp only [BASE]
        omega
    · refine ih _ _ _ _ hl ?_ ?_
      · show (s1 + b) % BASE % BASE = (t1 + b) % BASE
        simp only [BASE]
        omega
      · show (s2 + s1 + b) % BASE % BASE = (t2 + t1 + b) % BASE
        simp only [BASE]
        omega

/-- Closed form of the sequential recurrence over a nonempty byte list. -/
theorem scalarFold_closed (l : List Nat) (s1 s2 : Nat) (h : l ≠ []) :
    scalarFold s1 s2 l
      = ((s1 + l.sum) % BASE, (s2 + l.length * s1 + wsum l) % BASE) := by
  obtain ⟨c1, c2⟩ := scalarFold_modeq l s1 s2 s1 s2 h rfl rfl
  rw [scalarFoldX_closed] at c1 c2
  exact Prod.ext c1 c2

theorem scalarFold_append (s1 s2 : Nat) (l1 l2 : List Nat) :
    scalarFold s1 s2 (l1 ++ l2)
      = scalarFold (scalarFold s1 s2 l1).1 (scalarFold s1 s2 l1).2 l2 := by
  simp only [scalarFold, List.foldl_append]

theorem scalarFold_le (l : List Nat) (s1 s2 : Nat) (h1 : s1 ≤ 65535) (h2 : s2 ≤ 65535) :
    (scalarFold s1 s2 l).1 ≤ 65535 ∧ (scalarFold s1 s2 l).2 ≤ 65535 := by
  by_cases hl : l = []
  · subst hl
    exact ⟨h1, h2⟩
  · rw [scalarFold_closed l s1 s2 hl]
    constructor
    · show (s1 + l.sum) % BASE ≤ 65535
      simp only [BASE]
      omega
    · show (s2 + l.length * s1 + wsum l) % BASE ≤ 65535
      simp only [BASE]
      omega

/-! ## Correctness of the outer loop and of the whole function -/

theorem outer_correct (len : Nat) : ∀ (bs : List Nat) (a s : Nat),
    a ≤ 65535 → s ≤ 65535 → (∀ b ∈ bs, b < 256) → len ≤ bs.length →
    ∃ d, d ≤ len ∧ len - d < 64 ∧
      outerLoop a s bs len
        = ((scalarFold a s (bs.take d)).1, (scalarFold a s (bs.take d)).2,
           bs.drop d, len - d) := by
  induction len using Nat.strong_induction_on with
  | _ len ih =>
    intro bs a s ha hs hb hlen
    by_cases h64 : 64 ≤ len
    · obtain ⟨hK64, hKmod, hK5504, hKlen⟩ := chunkK_props len h64
      have hcs := chunk_spec a s bs len ha hs hb h64 hlen
      have hlK : (bs.take (chunkK len)).length = chunkK len := by
        rw [List.length_take]
        omega
      have hne : bs.take (chunkK len) ≠ [] := by
        intro hnil
        rw [hnil] at hlK
        simp at hlK
        omega
      have hKfold : scalarFold a s (bs.take (chunkK len))
          = ((a + (bs.take (chunkK len)).sum) % BASE,
             (s + chunkK len * a + wsum (bs.take (chunkK len))) % BASE) := by
        rw [scalarFold_closed _ _ _ hne, hlK]
      obtain ⟨d', hd'le, hd'lt, hrec⟩ := ih (len - chunkK len) (by omega) (bs.drop (chunkK len))
        ((a + (bs.take (chunkK len)).sum) % BASE)
        ((s + chunkK len * a + wsum (bs.take (chunkK len))) % BASE)
        (by simp only [BASE]; omega)
        (by simp only [BASE]; omega)
        (fun b hb' => hb b (List.drop_subset _ _ hb'))
        (by rw [List.length_drop]; omega)
      refine ⟨chunkK len + d', by omega, by omega, ?_⟩
      rw [outerLoop, dif_pos h64]
      simp only [hcs]
      rw [hrec]
      have hsplit : bs.take (chunkK len + d') = bs.take (chunkK len)
          ++ (bs.drop (chunkK len)).take d' := List.take_add bs (chunkK len) d'
      rw [hsplit, scalarFold_append, hKfold, List.drop_drop, Nat.sub_sub]
    · rw [outerLoop, dif_neg h64]
      refine ⟨0, by omega, by omega, ?_⟩
      simp [scalarFold]

/-- Both scalars produced by a chunk are reduced modulo `BASE`. -/
theorem chunk_lt_BASE (a s : Nat) (bs : List Nat) (len : Nat) :
    (chunk a s bs len).1 < BASE ∧ (chunk a s bs len).2.1 < BASE := by
  simp only [chunk]
  constructor
  · exact Nat.mod_lt _ (by decide)
  · exact Nat.mod_lt _ (by decide)

/-- Once at least one chunk runs, the scalars handed onwards are in `[0, BASE)`. -/
theorem outer_lt_BASE (len : Nat) : ∀ (bs : List Nat) (a s : Nat), 64 ≤ len →
    (outerLoop a s bs len).1 < BASE ∧ (outerLoop a s bs len).2.1 < BASE := by
  induction len using Nat.strong_induction_on with
  | _ len ih =>
    intro bs a s h64
    have hlt : (chunk a s bs len).2.2.2 < len := by
      rw [chunk_fourth]
      have := chunkK_ge_64 len h64
      omega
    rw [outerLoop, dif_pos h64]
    by_cases h2 : 64 ≤ (chunk a s bs len).2.2.2
    · exact ih _ hlt _ _ _ h2
    · rw [outerLoop, dif_neg h2]
      exact chunk_lt_BASE a s bs len

/-- The remaining length on exit from the outer loop is below one vector width. -/
theorem outer_len_lt (len : Nat) : ∀ (bs : List Nat) (a s : Nat),
    (outerLoop a s bs len).2.2.2 < 64 := by
  induction len using Nat.strong_induction_on with
  | _ len ih =>
    intro bs a s
    by_cases h64 : 64 ≤ len
    · have hlt : (chunk a s bs len).2.2.2 < len := by
        rw [chunk_fourth]
        have := chunkK_ge_64 len h64
        omega
      rw [outerLoop, dif_pos h64]
      exact ih _ hlt _ _ _
    · rw [outerLoop, dif_neg h64]
      show len < 64
      omega

/-- Whole-function correctness: in the embedded configuration the kernel
computes exactly the packed scalar Adler-32 recurrence over the first `len`
bytes, from any packed state and for every length. -/
theorem vnni_correct (s1 s2 len : Nat) (bs : List Nat)
    (h1 : s1 < 65536) (h2 : s2 < 65536) (hb : ∀ b ∈ bs, b < 256)
    (hlen : len ≤ bs.length) :
    adler32_avx512_vnni (s2 * 65536 + s1) (some bs) len
      = packSums (scalarFold s1 s2 (bs.take len)) := by
  have hsplit1 : (s2 * 65536 + s1) % 65536 = s1 := by omega
  have hsplit2 : (s2 * 65536 + s1) / 65536 % 65536 = s2 := by omega
  simp only [adler32_avx512_vnni]
  rw [hsplit1, hsplit2]
  by_cases hl1 : len = 1
  · rw [if_pos hl1, hl1]
    rfl
  · rw [if_neg hl1]
    by_cases hl16 : len < 16
    · rw [if_pos hl16]
      rfl
    · rw [if_neg hl16]
      obtain ⟨d, hdle, hdlt, hloop⟩ :=
        outer_correct len bs s1 s2 (by omega) (by omega) hb hlen
      simp only [hloop]
      show packSums (scalarFold (scalarFold s1 s2 (bs.take d)).1
        (scalarFold s1 s2 (bs.take d)).2 ((bs.drop d).take (len - d))) = _
      rw [← scalarFold_append]
      have hsplit : bs.take d ++ (bs.drop d).take (len - d) = bs.take len := by
        rw [← List.take_add]
        congr 1
        omega
      rw [hsplit]

/-!
## The claims
-/

/-- C1: for every initial checksum state `(s1, s2)`, every byte buffer and
every length up to the buffer size (hence in particular every length up to
`4*NMAX + 137`), `adler32_avx512_vnni` returns exactly the scalar sequential
Adler-32 recurrence folded over the first `len` bytes from that state,
packed as `sum2 * 2^16 + sum1`. -/
theorem C1_vectorized_equals_scalar (s1 s2 len : Nat) (bs : List Nat)
    (h1 : s1 < 65536) (h2 : s2 < 65536) (hb : ∀ b ∈ bs, b < 256)
    (hlen : len ≤ bs.length) :
    adler32_avx512_vnni (s2 * 65536 + s1) (some bs) len
      = packSums (scalarFold s1 s2 (bs.take len)) :=
  vnni_correct s1 s2 len bs h1 h2 hb hlen

/-- Witness for C1: the 9-byte ASCII buffer "Wikipedia" from state `(1, 0)`. -/
theorem C1_witness :
    (1 : Nat) < 65536 ∧ (0 : Nat) < 65536
  ∧ (∀ b ∈ ([87, 105, 107, 105, 112, 101, 100, 105, 97] : List Nat), b < 256)
  ∧ 9 ≤ ([87, 105, 107, 105, 112, 101, 100, 105, 97] : List Nat).length
  ∧ adler32_avx512_vnni (0 * 65536 + 1)
        (some [87, 105, 107, 105, 112, 101, 100, 105, 97]) 9
      = packSums (scalarFold 1 0
          (([87, 105, 107, 105, 112, 101, 100, 105, 97] : List Nat).take 9)) :=
  ⟨by decide, by decide, by decide, by decide,
   C1_vectorized_equals_scalar 1 0 9 [87, 105, 107, 105, 112, 101, 100, 105, 97]
     (by decide) (by decide) (by decide) (by decide)⟩

/-- C2: splitting a buffer at any offset `k` and running the checksum over the
prefix, then over the suffix seeded with the first result, equals one run over
the whole buffer. -/
theorem C2_split_compose (s1 s2 k : Nat) (bs : List Nat)
    (h1 : s1 < 65536) (h2 : s2 < 65536) (hb : ∀ b ∈ bs, b < 256)
    (hk : k ≤ bs.length) :
    adler32_avx512_vnni
        (adler32_avx512_vnni (s2 * 65536 + s1) (some (bs.take k)) k)
        (some (bs.drop k)) (bs.length - k)
      = adler32_avx512_vnni (s2 * 65536 + s1) (some bs) bs.length := by
  have hbk : ∀ b ∈ bs.take k, b < 256 := fun b hb' => hb b (List.take_subset _ _ hb')
  have hbd : ∀ b ∈ bs.drop k, b < 256 := fun b hb' => hb b (List.drop_subset _ _ hb')
  have hlk : (bs.take k).length = k := by
    rw [List.length_take]
    omega
  have htt : (bs.take k).take k = bs.take k :=
    List.take_of_length_le (by rw [hlk])
  have htd : (bs.drop k).take (bs.length - k) = bs.drop k :=
    List.take_of_length_le (by rw [List.length_drop])
  obtain ⟨hf1, hf2⟩ := scalarFold_le (bs.take k) s1 s2 (by omega) (by omega)
  have hinner := vnni_correct s1 s2 k (bs.take k) h1 h2 hbk (by rw [hlk])
  rw [htt] at hinner
  have houter := vnni_correct (scalarFold s1 s2 (bs.take k)).1
    (scalarFold s1 s2 (bs.take k)).2 (bs.length - k) (bs.drop k)
    (by omega) (by omega) hbd (by rw [List.length_drop])
  rw [htd] at houter
  have hwhole := vnni_correct s1 s2 bs.length bs h1 h2 hb (le_refl _)
  rw [List.take_length] at hwhole
  rw [hinner]
  show adler32_avx512_vnni ((scalarFold s1 s2 (bs.take k)).2 * 65536
      + (scalarFold s1 s2 (bs.take k)).1) (some (bs.drop k)) (bs.length - k) = _
  rw [houter, hwhole, ← scalarFold_append, List.take_append_drop]

/-- Witness for C2: a four-byte buffer split at offset 2. -/
theorem C2_witness :
    (1 : Nat) < 65536 ∧ (0 : Nat) < 65536
  ∧ (∀ b ∈ ([10, 20, 30, 40] : List Nat), b < 256)
  ∧ 2 ≤ ([10, 20, 30, 40] : List Nat).length
  ∧ adler32_avx512_vnni
        (adler32_avx512_vnni (0 * 65536 + 1) (some (([10, 20, 30, 40] : List Nat).take 2)) 2)
        (some (([10, 20, 30, 40] : List Nat).drop 2))
        (([10, 20, 30, 40] : List Nat).length - 2)
      = adler32_avx512_vnni (0 * 65536 + 1) (some [10, 20, 30, 40])
          ([10, 20, 30, 40] : List Nat).length :=
  ⟨by decide, by decide, by decide, by decide,
   C2_split_compose 1 0 2 [10, 20, 30, 40] (by decide) (by decide) (by decide) (by decide)⟩

/-- C6: each outer-loop iteration consumes `min(len, NMAX)` rounded down to a
multiple of 64 — never more than `NMAX` bytes between two reductions — and
when the whole remainder fits in one chunk the sub-64 excess stays in the
residual length. -/
theorem C6_chunk_clipping (a s : Nat) (bs : List Nat) (len : Nat) (h64 : 64 ≤ len) :
    (chunk a s bs len).2.2.2 = len - (min len NMAX - min len NMAX % 64)
  ∧ min len NMAX - min len NMAX % 64 ≤ NMAX
  ∧ (min len NMAX - min len NMAX % 64) % 64 = 0
  ∧ 64 ≤ min len NMAX - min len NMAX % 64
  ∧ (len ≤ NMAX → (chunk a s bs len).2.2.2 = len % 64) := by
  obtain ⟨hK64, hKmod, hK5504, hKlen⟩ := chunkK_props len h64
  have hKdef : chunkK len = min len NMAX - min len NMAX % 64 := rfl
  have hN : NMAX = 5552 := rfl
  rw [chunk_fourth]
  refine ⟨by rw [hKdef], by omega, by omega, by omega, ?_⟩
  intro hle
  omega

/-- Witness for C6 at `len = 70`. -/
theorem C6_witness :
    (64 : Nat) ≤ 70
  ∧ (chunk 1 0 (List.replicate 70 1) 70).2.2.2
      = 70 - (min 70 NMAX - min 70 NMAX % 64) :=
  ⟨by decide, (C6_chunk_clipping 1 0 (List.replicate 70 1) 70 (by decide)).1⟩

/-- C9: the loop strictly consumes at least 64 bytes per iteration, the outer
loop always exits with a residual length below 64, and for `len ≥ 16` the
function returns the scalar tail handler's value on the loop's final state
verbatim. -/
theorem C9_termination (a s adler : Nat) (bs : List Nat) (len : Nat) (h64 : 64 ≤ len) :
    (chunk a s bs len).2.2.2 + 64 ≤ len
  ∧ (outerLoop a s bs len).2.2.2 < 64
  ∧ adler32_avx512_vnni adler (some bs) len
      = adler32_len_16 (outerLoop (adler % 65536) (adler / 65536 % 65536) bs len).1
          (outerLoop (adler % 65536) (adler / 65536 % 65536) bs len).2.2.1
          (outerLoop (adler % 65536) (adler / 65536 % 65536) bs len).2.2.2
          (outerLoop (adler % 65536) (adler / 65536 % 65536) bs len).2.1 := by
  obtain ⟨hK64, hKmod, hK5504, hKlen⟩ := chunkK_props len h64
  refine ⟨by rw [chunk_fourth]; omega, outer_len_lt len bs a s, ?_⟩
  simp only [adler32_avx512_vnni]
  rw [if_neg (by omega : ¬ len = 1), if_neg (by omega : ¬ len < 16)]

/-- Witness for C9 at `len = 130`. -/
theorem C9_witness :
    (64 : Nat) ≤ 130
  ∧ (chunk 1 0 (List.replicate 130 1) 130).2.2.2 + 64 ≤ 130 :=
  ⟨by decide, (C9_termination 1 0 1 (List.replicate 130 1) 130 (by decide)).1⟩

/-- C10: with neither narrower kernel compiled in, a NULL buffer with any
length other than 1 yields the packed value 1, discarding the initial state. -/
theorem C10_null_returns_one (adler len : Nat) (h : len ≠ 1) :
    adler32_avx512_vnni adler none len = 1 := by
  simp only [adler32_avx512_vnni]
  rw [if_neg h]

/-- Witness for C10 at state 123456 and length 0. -/
theorem C10_witness :
    (0 : Nat) ≠ 1 ∧ adler32_avx512_vnni 123456 none 0 = 1 :=
  ⟨by decide, C10_null_returns_one 123456 0 (by decide)⟩

/-- The spec's carry decomposition of a chunk's second-sum update: each
64-byte sub-block contributes the byte-sum total from just before it (the
value the carry accumulator absorbs, scaled by the sub-block width 64 at
chunk end) plus its own descending-weight dot product. -/
def carryDecomp (a : Nat) : Nat → List Nat → Nat
  | 0, _ => 0
  | n + 1, bs =>
      64 * a + wsum (bs.take 64) + carryDecomp (a + (bs.take 64).sum) n (bs.drop 64)

theorem carryDecomp_eq (n : Nat) : ∀ (a : Nat) (bs : List Nat), 64 * n ≤ bs.length →
    carryDecomp a n bs = 64 * n * a + wsum (bs.take (64 * n)) := by
  induction n with
  | zero =>
    intro a bs _
    simp [carryDecomp, wsum]
  | succ n ih =>
    intro a bs h
    rw [carryDecomp, ih (a + (bs.take 64).sum) (bs.drop 64) (by rw [List.length_drop]; omega)]
    have hsplit : bs.take (64 * (n + 1)) = bs.take 64 ++ (bs.drop 64).take (64 * n) := by
      rw [show 64 * (n + 1) = 64 + 64 * n by ring, List.take_add]
    rw [hsplit, wsum_append]
    have hlt : ((bs.drop 64).take (64 * n)).length = 64 * n := by
      rw [List.length_take, List.length_drop]
      omega
    rw [hlt]
    ring

/-- C3: the second-sum output of a chunk is exactly the initial `sum2` plus,
per sub-block, 64 times the pre-sub-block byte-sum total (the carry
accumulator's contribution after its end-of-chunk shift by 6) plus the
sub-block's weighted dot product, reduced modulo `BASE`. -/
theorem C3_carry_accumulator (a s : Nat) (bs : List Nat) (len : Nat)
    (ha : a ≤ 65535) (hs : s ≤ 65535) (hb : ∀ b ∈ bs, b < 256)
    (h64 : 64 ≤ len) (hlen : len ≤ bs.length) :
    (chunk a s bs len).2.1 = (s + carryDecomp a (chunkK len / 64) bs) % BASE := by
  obtain ⟨hK64, hKmod, hK5504, hKlen⟩ := chunkK_props len h64
  have hq : 64 * (chunkK len / 64) = chunkK len := by omega
  rw [chunk_spec a s bs len ha hs hb h64 hlen]
  rw [carryDecomp_eq (chunkK len / 64) a bs (by omega), hq]
  show (s + chunkK len * a + wsum (bs.take (chunkK len))) % BASE = _
  congr 1
  omega

/-- Witness for C3 on a 64-byte buffer of value 7. -/
theorem C3_witness :
    (1 : Nat) ≤ 65535 ∧ (0 : Nat) ≤ 65535
  ∧ (∀ b ∈ List.replicate 64 (7 : Nat), b < 256)
  ∧ (64 : Nat) ≤ 64 ∧ 64 ≤ (List.replicate 64 (7 : Nat)).length
  ∧ (chunk 1 0 (List.replicate 64 7) 64).2.1
      = (0 + carryDecomp 1 (chunkK 64 / 64) (List.replicate 64 7)) % BASE :=
  ⟨by decide, by decide, by decide, by decide, by decide,
   C3_carry_accumulator 1 0 (List.replicate 64 7) 64
     (by decide) (by decide) (by decide) (by decide) (by decide)⟩

/-- C4: the constant weight vector assigns weight `64 - i` to the byte at
offset `i`, and over any 64-byte sub-block the sequential `sum2` recurrence
accumulates exactly that dot product on top of `64 * sum1`: each byte's
weight equals the number of times the sequential definition re-sums it. -/
theorem C4_weight_vector (s1 s2 : Nat) (l : List Nat) (hlen : l.length = 64) :
    (∀ i < 64, dot2v.getD i 0 = 64 - i)
  ∧ scalarFold s1 s2 l
      = ((s1 + l.sum) % BASE,
         (s2 + 64 * s1 + ∑ i ∈ Finset.range 64, dot2v.getD i 0 * l.getD i 0) % BASE) := by
  refine ⟨dot2v_getD, ?_⟩
  have hne : l ≠ [] := by
    intro h
    rw [h] at hlen
    simp at hlen
  rw [scalarFold_closed l s1 s2 hne, hlen, wsum_getD, hlen]
  have hcong : ∀ i ∈ Finset.range 64, (64 - i) * l.getD i 0
      = dot2v.getD i 0 * l.getD i 0 := by
    intro i hi
    rw [dot2v_getD i (Finset.mem_range.mp hi)]
  rw [Finset.sum_congr rfl hcong]

/-- Witness for C4 on the 64-byte buffer of value 3 from state `(5, 6)`. -/
theorem C4_witness :
    (List.replicate 64 (3 : Nat)).length = 64
  ∧ ((∀ i < 64, dot2v.getD i 0 = 64 - i)
  ∧ scalarFold 5 6 (List.replicate 64 3)
      = ((5 + (List.replicate 64 (3 : Nat)).sum) % BASE,
         (6 + 64 * 5 + ∑ i ∈ Finset.range 64,
            dot2v.getD i 0 * (List.replicate 64 (3 : Nat)).getD i 0) % BASE)) :=
  ⟨by decide, C4_weight_vector 5 6 (List.replicate 64 3) (by decide)⟩

/-- One-sub-block-at-a-time processing of a chunk, following the spec's
description of step 2 (a single weighted accumulator; the carry accumulator
absorbs the previous byte-sum accumulator before each sub-block and is scaled
by the sub-block width at chunk end).  This is the reference side of the
unrolling-refinement claim. -/
def chunkSeqStep (st : Vec × Vec × Vec) (blk : List Nat) : Vec × Vec × Vec :=
  (vadd32 st.1 (vsad blk), vdpbusd st.2.1 blk, vadd32 st.2.2 st.1)

/-- Chunk result computed one sub-block at a time from the spec's description:
seed lane 0, fold `chunkSeqStep` over the sub-blocks, scale the carry
accumulator by 64 into the weighted accumulator, reduce both mod `BASE`. -/
def chunkSeq (adler sum2 : Nat) (bl : List (List Nat)) : Nat × Nat :=
  let st := bl.foldl chunkSeqStep (vbcast0 adler, vbcast0 sum2, vzero)
  (phsum_even st.1 % BASE, reduce_add_epu32 (vadd32 st.2.1 (vslli6 st.2.2)) % BASE)

theorem seq_vmod (bl : List (List Nat)) : ∀ e1 e2 e3 : Vec,
    bl.foldl chunkSeqStep (vmod e1, vmod e2, vmod e3)
      = (vmod (runX (e1, e2, e3) bl).1, vmod (runX (e1, e2, e3) bl).2.1,
         vmod (runX (e1, e2, e3) bl).2.2) := by
  induction bl with
  | nil =>
    intro e1 e2 e3
    rfl
  | cons blk bl ih =>
    intro e1 e2 e3
    rw [List.foldl_cons]
    have hstep : chunkSeqStep (vmod e1, vmod e2, vmod e3) blk
        = (vmod (vaddX e1 (vsad blk)), vmod (vaddX e2 (dpv blk)), vmod (vaddX e3 e1)) := by
      show (vadd32 (vmod e1) (vsad blk), vdpbusd (vmod e2) blk,
            vadd32 (vmod e3) (vmod e1)) = _
      rw [vadd32_vmod_any, vdpbusd_vmod, vadd32_vmod_two]
    rw [hstep, ih, runX_cons]
    have hs2 : stepX (e1, e2, e3) blk
        = (vaddX e1 (vsad blk), vaddX e2 (dpv blk), vaddX e3 e1) := rfl
    rw [hs2]

theorem reduce_final2 (E2 E3 : Vec) :
    reduce_add_epu32 (vadd32 (vmod E2) (vslli6 (vmod E3)))
      = (tAll E2 + 64 * tAll E3) % M32 := by
  rw [reduce_add_epu32]
  have hlane : ∀ i ∈ Finset.range 16,
      vadd32 (vmod E2) (vslli6 (vmod E3)) i % M32 = (E2 i + 64 * E3 i) % M32 := by
    intro i _
    simp only [vadd32, vslli6, vmod, M32]
    omega
  calc (∑ i ∈ Finset.range 16, vadd32 (vmod E2) (vslli6 (vmod E3)) i) % M32
      = (∑ i ∈ Finset.range 16, vadd32 (vmod E2) (vslli6 (vmod E3)) i % M32) % M32 :=
        Finset.sum_nat_mod _ _ _
    _ = (∑ i ∈ Finset.range 16, (E2 i + 64 * E3 i) % M32) % M32 := by
        rw [Finset.sum_congr rfl hlane]
    _ = (∑ i ∈ Finset.range 16, (E2 i + 64 * E3 i)) % M32 :=
        (Finset.sum_nat_mod _ _ _).symm
    _ = (tAll E2 + 64 * tAll E3) % M32 := by
        rw [Finset.sum_add_distrib, ← Finset.mul_sum, tAll, tAll]

/-- Closed form of the one-sub-block-at-a-time reference over `n` sub-blocks. -/
theorem chunkSeq_spec (a s : Nat) (bs : List Nat) (n : Nat)
    (ha : a ≤ 65535) (hs : s ≤ 65535) (hb : ∀ b ∈ bs, b < 256)
    (hn : 64 * n ≤ bs.length) (hK : 64 * n ≤ 5504) :
    chunkSeq a s (blocks64 n bs)
      = ((a + (bs.take (64 * n)).sum) % BASE,
         (s + 64 * n * a + wsum (bs.take (64 * n))) % BASE) := by
  have haM : a < M32 := by simp only [M32]; omega
  have hsM : s < M32 := by simp only [M32]; omega
  simp only [chunkSeq]
  rw [vbcast0_eq_vmod a haM, vbcast0_eq_vmod s hsM, vzero_eq_vmod]
  rw [seq_vmod (blocks64 n bs) (vbcast0 a) (vbcast0 s) vzero]
  obtain ⟨t1, t2, t3⟩ := runX_totals n bs (vbcast0 a) (vbcast0 s) vzero hn
  have hto : min (64 * n) bs.length = 64 * n := by omega
  have hsum_le' : (bs.take (64 * n)).sum ≤ 255 * 5504 := by
    have h1 := sum_le_bound (bs.take (64 * n)) (fun b hb' => hb b (List.take_subset _ _ hb'))
    rw [List.length_take, hto] at h1
    have := Nat.mul_le_mul_left 255 hK
    omega
  have hws : 2 * wsum (bs.take (64 * n)) ≤ 255 * (5504 * 5505) := by
    have h1 := wsum_bound (bs.take (64 * n)) (fun b hb' => hb b (List.take_subset _ _ hb'))
    rw [List.length_take, hto] at h1
    have h2 : (64 * n) * (64 * n + 1) ≤ 5504 * 5505 := Nat.mul_le_mul (by omega) (by omega)
    have h3 := Nat.mul_le_mul_left 255 h2
    omega
  have hKa : 64 * n * a ≤ 5504 * 65535 := Nat.mul_le_mul hK ha
  refine Prod.ext ?_ ?_
  · show phsum_even (vmod (runX (vbcast0 a, vbcast0 s, vzero) (blocks64 n bs)).1) % BASE = _
    rw [phsum_even_vmod, t1, tEven_vbcast0]
    have hlt : a + (bs.take (64 * n)).sum < M32 := by
      simp only [M32]
      omega
    rw [Nat.mod_eq_of_lt hlt]
  · show reduce_add_epu32 (vadd32 (vmod _) (vslli6 (vmod _))) % BASE = _
    rw [reduce_final2, t3, tAll_vbcast0, tAll_vzero, tAll_vbcast0]
    have hlt : s + 64 * 0 + 64 * n * a + wsum (bs.take (64 * n)) < M32 := by
      simp only [M32]
      omega
    rw [Nat.mod_eq_of_lt hlt]
    congr 1

/-- C8: when the rounded chunk length is an odd multiple of 64 the peel leaves
an exact multiple of the 128-byte unrolled step, and the peeled, 2-way-unrolled
chunk computation (second weighted sum in its own accumulator, folded in at
chunk end) produces exactly the same reduced scalars as processing the same
64-byte sub-blocks one at a time in order. -/
theorem C8_unrolling_refinement (a s : Nat) (bs : List Nat) (len : Nat)
    (ha : a ≤ 65535) (hs : s ≤ 65535) (hb : ∀ b ∈ bs, b < 256)
    (h64 : 64 ≤ len) (hlen : len ≤ bs.length) :
    (chunkK len % 128 ≠ 0 → (chunkK len - 64) % 128 = 0)
  ∧ chunk a s bs len
      = ((chunkSeq a s (blocks64 (chunkK len / 64) bs)).1,
         (chunkSeq a s (blocks64 (chunkK len / 64) bs)).2,
         bs.drop (chunkK len), len - chunkK len) := by
  obtain ⟨hK64, hKmod, hK5504, hKlen⟩ := chunkK_props len h64
  have hq : 64 * (chunkK len / 64) = chunkK len := by omega
  refine ⟨fun _ => by omega, ?_⟩
  rw [chunk_spec a s bs len ha hs hb h64 hlen,
    chunkSeq_spec a s bs (chunkK len / 64) ha hs hb (by omega) (by omega), hq]

/-- Witness for C8 on a single-sub-block chunk (the peel path), 64 bytes of 9. -/
theorem C8_witness :
    (1 : Nat) ≤ 65535 ∧ (2 : Nat) ≤ 65535
  ∧ (∀ b ∈ List.replicate 64 (9 : Nat), b < 256)
  ∧ (64 : Nat) ≤ 64 ∧ 64 ≤ (List.replicate 64 (9 : Nat)).length
  ∧ (chunkK 64 % 128 ≠ 0 → (chunkK 64 - 64) % 128 = 0) :=
  ⟨by decide, by decide, by decide, by decide, by decide,
   (C8_unrolling_refinement 1 2 (List.replicate 64 9) 64
     (by decide) (by decide) (by decide) (by decide) (by decide)).1⟩

/-! ## Lane-level absence of overflow (C5) -/

theorem vsad_hi (blk : List Nat) (h : blk.length ≤ 64) (i : Nat) (hi : 16 ≤ i) :
    vsad blk i = 0 := by
  rw [vsad]
  by_cases he : i % 2 = 0
  · rw [if_pos he]
    refine Finset.sum_eq_zero ?_
    intro t _
    apply List.getD_eq_default
    omega
  · rw [if_neg he]

theorem dpv_hi (blk : List Nat) (h : blk.length ≤ 64) (i : Nat) (hi : 16 ≤ i) :
    dpv blk i = 0 := by
  show (∑ t ∈ Finset.range 4, blk.getD (4 * i + t) 0 * dot2v.getD (4 * i + t) 0) = 0
  refine Finset.sum_eq_zero ?_
  intro t _
  have h0 : blk.getD (4 * i + t) 0 = 0 := List.getD_eq_default blk 0 (by omega)
  rw [h0, Nat.zero_mul]

theorem runX_hi (bl : List (List Nat)) : ∀ (w1 w2 w3 : Vec),
    (∀ blk ∈ bl, blk.length ≤ 64) →
    (∀ i, 16 ≤ i → w1 i = 0) → (∀ i, 16 ≤ i → w2 i = 0) → (∀ i, 16 ≤ i → w3 i = 0) →
    (∀ i, 16 ≤ i → (runX (w1, w2, w3) bl).1 i = 0)
  ∧ (∀ i, 16 ≤ i → (runX (w1, w2, w3) bl).2.1 i = 0)
  ∧ (∀ i, 16 ≤ i → (runX (w1, w2, w3) bl).2.2 i = 0) := by
  induction bl with
  | nil =>
    intro w1 w2 w3 _ h1 h2 h3
    exact ⟨h1, h2, h3⟩
  | cons blk bl ih =>
    intro w1 w2 w3 hbl h1 h2 h3
    have hblk : blk.length ≤ 64 := hbl blk (List.mem_cons_self blk bl)
    rw [runX_cons]
    have hs : stepX (w1, w2, w3) blk
        = (vaddX w1 (vsad blk), vaddX w2 (dpv blk), vaddX w3 w1) := rfl
    rw [hs]
    refine ih _ _ _ (fun b hb' => hbl b (List.mem_cons_of_mem blk hb')) ?_ ?_ ?_
    · intro i hi
      show w1 i + vsad blk i = 0
      rw [h1 i hi, vsad_hi blk hblk i hi]
    · intro i hi
      show w2 i + dpv blk i = 0
      rw [h2 i hi, dpv_hi blk hblk i hi]
    · intro i hi
      show w3 i + w1 i = 0
      rw [h3 i hi, h1 i hi]

theorem lane_le_tAll (v : Vec) (hv : ∀ i, 16 ≤ i → v i = 0) (i : Nat) : v i ≤ tAll v := by
  by_cases hi : i < 16
  · exact Finset.single_le_sum (f := v) (fun j _ => Nat.zero_le _) (Finset.mem_range.mpr hi)
  · rw [hv i (by omega)]
    exact Nat.zero_le _

/-- Per-lane bounds for every prefix of the exact reference run over a chunk
of at most `NMAX` bytes: the byte-sum lanes, the weighted lanes, the carry
lanes after their shift by 6, and the final additions all stay below `2^32`. -/
theorem runX_no_overflow (a s : Nat) (bs : List Nat) (n j : Nat)
    (ha : a < BASE) (hs : s < BASE) (hb : ∀ b ∈ bs, b < 256)
    (hn : 64 * n ≤ bs.length) (hnm : 64 * n ≤ NMAX) (hj : j ≤ n) :
    (∀ i, (runX (vbcast0 a, vbcast0 s, vzero) (blocks64 j bs)).1 i < 4294967296)
  ∧ (∀ i, (runX (vbcast0 a, vbcast0 s, vzero) (blocks64 j bs)).2.1 i < 4294967296)
  ∧ (∀ i, 64 * (runX (vbcast0 a, vbcast0 s, vzero) (blocks64 j bs)).2.2 i < 4294967296)
  ∧ (∀ i, (runX (vbcast0 a, vbcast0 s, vzero) (blocks64 j bs)).2.1 i
        + 64 * (runX (vbcast0 a, vbcast0 s, vzero) (blocks64 j bs)).2.2 i < 4294967296) := by
  have hN : NMAX = 5552 := rfl
  have haB : a ≤ 65520 := by
    have : BASE = 65521 := rfl
    omega
  have hsB : s ≤ 65520 := by
    have : BASE = 65521 := rfl
    omega
  have hjlen : 64 * j ≤ bs.length := by omega
  obtain ⟨t1, t2, t3⟩ := runX_totals j bs (vbcast0 a) (vbcast0 s) vzero hjlen
  have hblk : ∀ blk ∈ blocks64 j bs, blk.length ≤ 64 := by
    intro blk hblk'
    rw [blocks64_mem_length j bs hjlen blk hblk']
  obtain ⟨z1, z2, z3⟩ := runX_hi (blocks64 j bs) (vbcast0 a) (vbcast0 s) vzero hblk
    (fun i hi => by simp only [vbcast0]; rw [if_neg (by omega)])
    (fun i hi => by simp only [vbcast0]; rw [if_neg (by omega)])
    (fun _ _ => rfl)
  have hto : min (64 * j) bs.length = 64 * j := by omega
  have hsum : (bs.take (64 * j)).sum ≤ 255 * 5552 := by
    have h1 := sum_le_bound (bs.take (64 * j)) (fun b hb' => hb b (List.take_subset _ _ hb'))
    rw [List.length_take, hto] at h1
    have h2 : 255 * (64 * j) ≤ 255 * 5552 := Nat.mul_le_mul_left 255 (by omega)
    omega
  have hws : 2 * wsum (bs.take (64 * j)) ≤ 255 * (5552 * 5553) := by
    have h1 := wsum_bound (bs.take (64 * j)) (fun b hb' => hb b (List.take_subset _ _ hb'))
    rw [List.length_take, hto] at h1
    have h2 : (64 * j) * (64 * j + 1) ≤ 5552 * 5553 := Nat.mul_le_mul (by omega) (by omega)
    have h3 := Nat.mul_le_mul_left 255 h2
    omega
  have hja : 64 * j * a ≤ 5552 * 65520 := Nat.mul_le_mul (by omega) haB
  have hT1 : tAll (runX (vbcast0 a, vbcast0 s, vzero) (blocks64 j bs)).1 < 4294967296 := by
    rw [t2, tAll_vbcast0]
    omega
  have hT23 : tAll (runX (vbcast0 a, vbcast0 s, vzero) (blocks64 j bs)).2.1
      + 64 * tAll (runX (vbcast0 a, vbcast0 s, vzero) (blocks64 j bs)).2.2
      < 4294967296 := by
    rw [t3, tAll_vbcast0, tAll_vzero, tAll_vbcast0]
    omega
  refine ⟨?_, ?_, ?_, ?_⟩
  · intro i
    have := lane_le_tAll _ z1 i
    omega
  · intro i
    have := lane_le_tAll _ z2 i
    omega
  · intro i
    have h1 := lane_le_tAll _ z3 i
    have h2 : 64 * (runX (vbcast0 a, vbcast0 s, vzero) (blocks64 j bs)).2.2 i
        ≤ 64 * tAll (runX (vbcast0 a, vbcast0 s, vzero) (blocks64 j bs)).2.2 :=
      Nat.mul_le_mul_left 64 h1
    omega
  · intro i
    have h1 := lane_le_tAll _ z2 i
    have h2 : 64 * (runX (vbcast0 a, vbcast0 s, vzero) (blocks64 j bs)).2.2 i
        ≤ 64 * tAll (runX (vbcast0 a, vbcast0 s, vzero) (blocks64 j bs)).2.2 :=
      Nat.mul_le_mul_left 64 (lane_le_tAll _ z3 i)
    omega

/-- C5: (a) over any chunk the wrapping lane arithmetic coincides with exact
integer arithmetic — the wrapped chunk equals the exact reference run reduced
once modulo `BASE` at the end; (b) for every prefix of every chunk of at most
`NMAX` bytes started from a state in `[0, BASE)`, no 32-bit lane of the
byte-sum, weighted or carry accumulator (the carry taken after its shift by 6,
and including the final additions into the weighted accumulator) exceeds
`2^32 - 1`; (c) in particular a buffer of exactly `2*NMAX` bytes of value
`0xFF` is reduced to the exact scalar Adler-32 value across two full chunks. -/
theorem C5_no_lane_overflow :
    (∀ (a s : Nat) (bs : List Nat) (len : Nat),
      a < BASE → s < BASE → (∀ b ∈ bs, b < 256) → 64 ≤ len → len ≤ bs.length →
      chunk a s bs len
        = (tEven (runX (vbcast0 a, vbcast0 s, vzero)
              (blocks64 (chunkK len / 64) bs)).1 % BASE,
           (tAll (runX (vbcast0 a, vbcast0 s, vzero)
              (blocks64 (chunkK len / 64) bs)).2.1
            + 64 * tAll (runX (vbcast0 a, vbcast0 s, vzero)
              (blocks64 (chunkK len / 64) bs)).2.2) % BASE,
           bs.drop (chunkK len), len - chunkK len))
  ∧ (∀ (a s : Nat) (bs : List Nat) (n j : Nat),
      a < BASE → s < BASE → (∀ b ∈ bs, b < 256) →
      64 * n ≤ bs.length → 64 * n ≤ NMAX → j ≤ n →
      (∀ i, (runX (vbcast0 a, vbcast0 s, vzero) (blocks64 j bs)).1 i < 4294967296)
    ∧ (∀ i, (runX (vbcast0 a, vbcast0 s, vzero) (blocks64 j bs)).2.1 i < 4294967296)
    ∧ (∀ i, 64 * (runX (vbcast0 a, vbcast0 s, vzero) (blocks64 j bs)).2.2 i < 4294967296)
    ∧ (∀ i, (runX (vbcast0 a, vbcast0 s, vzero) (blocks64 j bs)).2.1 i
          + 64 * (runX (vbcast0 a, vbcast0 s, vzero) (blocks64 j bs)).2.2 i < 4294967296))
  ∧ adler32_avx512_vnni 1 (some (List.replicate (2 * NMAX) 255)) (2 * NMAX)
      = packSums (scalarFold 1 0 (List.replicate (2 * NMAX) 255)) := by
  refine ⟨?_, runX_no_overflow, ?_⟩
  · intro a s bs len ha hs hb h64 hlen
    have haB : a ≤ 65535 := by
      have : BASE = 65521 := rfl
      omega
    have hsB : s ≤ 65535 := by
      have : BASE = 65521 := rfl
      omega
    obtain ⟨hK64, hKmod, hK5504, hKlen⟩ := chunkK_props len h64
    have hq : 64 * (chunkK len / 64) = chunkK len := by omega
    rw [chunk_spec a s bs len haB hsB hb h64 hlen]
    obtain ⟨t1, t2, t3⟩ :=
      runX_totals (chunkK len / 64) bs (vbcast0 a) (vbcast0 s) vzero (by omega)
    rw [t1, t3, tEven_vbcast0, tAll_vbcast0, tAll_vzero, tAll_vbcast0, hq]
    simp
  · have hrep : ∀ b ∈ List.replicate (2 * NMAX) (255 : Nat), b < 256 := by
      intro b hb'
      rw [List.eq_of_mem_replicate hb']
      omega
    have htk : (List.replicate (2 * NMAX) (255 : Nat)).take (2 * NMAX)
        = List.replicate (2 * NMAX) 255 :=
      List.take_of_length_le (by rw [List.length_replicate])
    have h := vnni_correct 1 0 (2 * NMAX) (List.replicate (2 * NMAX) 255)
      (by omega) (by omega) hrep (by rw [List.length_replicate])
    rw [htk] at h
    simpa using h

/-- Witness for C5 on one 64-byte sub-block of `0xFF` bytes from state `(1, 0)`. -/
theorem C5_witness :
    (1 : Nat) < BASE ∧ (0 : Nat) < BASE
  ∧ (∀ b ∈ List.replicate 64 (255 : Nat), b < 256)
  ∧ 64 * 1 ≤ (List.replicate 64 (255 : Nat)).length ∧ 64 * 1 ≤ NMAX ∧ (1 : Nat) ≤ 1
  ∧ (runX (vbcast0 1, vbcast0 0, vzero)
       (blocks64 1 (List.replicate 64 255))).1 0 < 4294967296 :=
  ⟨by decide, by decide, by decide, by decide, by decide, by decide,
   (C5_no_lane_overflow.2.1 1 0 (List.replicate 64 255) 1 1
     (by decide) (by decide) (by decide) (by decide) (by decide) (by decide)).1 0⟩

/-- C7: at chunk end the byte-sum accumulator reduces into `sum1` and the
weighted accumulator into `sum2` (each total including the pre-chunk state
seeded in lane 0), both modulo `BASE`; consequently the two scalars observed
between chunks — and at the hand-off to the tail handler once at least one
chunk has run — lie in `[0, BASE)`. -/
theorem C7_reduction_invariant (a s : Nat) (bs : List Nat) (len : Nat)
    (ha : a ≤ 65535) (hs : s ≤ 65535) (hb : ∀ b ∈ bs, b < 256)
    (h64 : 64 ≤ len) (hlen : len ≤ bs.length) :
    (chunk a s bs len).1 = (a + (bs.take (chunkK len)).sum) % BASE
  ∧ (chunk a s bs len).2.1 = (s + chunkK len * a + wsum (bs.take (chunkK len))) % BASE
  ∧ (chunk a s bs len).1 < BASE ∧ (chunk a s bs len).2.1 < BASE
  ∧ (outerLoop a s bs len).1 < BASE ∧ (outerLoop a s bs len).2.1 < BASE := by
  have hcs := chunk_spec a s bs len ha hs hb h64 hlen
  obtain ⟨hlb1, hlb2⟩ := chunk_lt_BASE a s bs len
  obtain ⟨holb1, holb2⟩ := outer_lt_BASE len bs a s h64
  exact ⟨by rw [hcs], by rw [hcs], hlb1, hlb2, holb1, holb2⟩

/-- Witness for C7 on a 64-byte buffer of value 2 from state `(1, 1)`. -/
theorem C7_witness :
    (1 : Nat) ≤ 65535 ∧ (1 : Nat) ≤ 65535
  ∧ (∀ b ∈ List.replicate 64 (2 : Nat), b < 256)
  ∧ (64 : Nat) ≤ 64 ∧ 64 ≤ (List.replicate 64 (2 : Nat)).length
  ∧ (chunk 1 1 (List.replicate 64 2) 64).1
      = (1 + ((List.replicate 64 (2 : Nat)).take (chunkK 64)).sum) % BASE :=
  ⟨by decide, by decide, by decide, by decide, by decide,
   (C7_reduction_invariant 1 1 (List.replicate 64 2) 64
     (by decide) (by decide) (by decide) (by decide) (by decide)).1⟩
